import Mathlib

/-!
Shallow embedding of the message-application engine of go-filecoin
(the `core` package: `ApplyMessage`, `attemptApplyMessage`,
`ApplyMessages`, `ProcessBlock`, `ProcessTipSet`, `CallQueryMethod`),
together with the parts of its environment (state tree, cached state
tree overlay, actor VM, block/tipset types) that the engine's
contracts depend on.

Addresses, code CIDs and content identifiers are modelled as natural
numbers; byte strings as lists of natural numbers.  Go errors are
modelled as inductive types; the engine's sentinel revert errors
(compared by pointer identity in Go) form one constructor family and
VM-produced revert causes another, so that a revert error produced by
the VM is never identical to an engine sentinel, exactly as pointer
comparison behaves in the source.  The state tree is threaded
explicitly: every operation that mutates a tree in Go returns the new
tree here.
-/

abbrev Address := Nat

abbrev Bytes := List Nat

/-- Code CID of the builtin account actor (`types.AccountActorCodeCid`). -/
def AccountActorCodeCid : Nat := 1

/-- Actor record (`actor.Actor`): code CID (`none` models a nil code,
i.e. an empty actor), nonce, balance and storage head. -/
structure Actor where
  Code : Option Nat
  Nonce : Nat
  Balance : Int
  Head : Option Nat
deriving DecidableEq, Repr

/-- Zero-value actor, `&actor.Actor{}`. -/
def emptyActor : Actor := ⟨none, 0, 0, none⟩

/-- Lookup in an address-to-actor association list. -/
def lookupActor : List (Address × Actor) → Address → Option Actor
  | [], _ => none
  | (b, act) :: rest, a => if a = b then some act else lookupActor rest a

/-- Replace-or-append in an address-to-actor association list. -/
def setActorList : List (Address × Actor) → Address → Actor → List (Address × Actor)
  | [], a, act => [(a, act)]
  | (b, x) :: rest, a, act =>
      if a = b then (a, act) :: rest else (b, x) :: setActorList rest a act

/-- Modelled from the spec: the state tree (`state.Tree`, not under
`src/`), "an authenticated key/value mapping from address to actor
record", modelled as an association list. -/
structure StateTree where
  actors : List (Address × Actor)
deriving DecidableEq, Repr

/-- Modelled from the spec: `state.Tree.GetActor`. -/
def StateTree.getActor (st : StateTree) (a : Address) : Option Actor :=
  lookupActor st.actors a

/-- Modelled from the spec: `state.Tree.SetActor` "replaces the record". -/
def StateTree.setActor (st : StateTree) (a : Address) (act : Actor) : StateTree :=
  ⟨setActorList st.actors a act⟩

/-- Modelled from the spec: the cached state tree
(`state.CachedTree`, not under `src/`): "an overlay that records
tentative writes on top of a base tree without modifying it", an
"in-memory dictionary keyed by address, layered over an immutable
snapshot". -/
structure CachedTree where
  base : StateTree
  cache : List (Address × Actor)
deriving DecidableEq, Repr

/-- Modelled from the spec: a fresh overlay over a base tree
(`state.NewCachedStateTree`). -/
def NewCachedStateTree (st : StateTree) : CachedTree := ⟨st, []⟩

/-- Modelled from the spec: `CachedTree.GetActor` reads through the
overlay; an actor found only in the base is loaded into the overlay
dictionary (this is what makes actors "loaded read-only" candidates
for being written back on commit). -/
def CachedTree.getActor (c : CachedTree) (a : Address) : Option Actor × CachedTree :=
  match lookupActor c.cache a with
  | some act => (some act, c)
  | none =>
    match c.base.getActor a with
    | some act => (some act, ⟨c.base, setActorList c.cache a act⟩)
    | none => (none, c)

/-- Modelled from the spec: `CachedTree.SetActor` buffers the write in
the overlay dictionary; the base tree is untouched. -/
def CachedTree.setActor (c : CachedTree) (a : Address) (act : Actor) : CachedTree :=
  ⟨c.base, setActorList c.cache a act⟩

/-- Modelled from the spec: `CachedTree.GetOrCreateActor` returns the
existing record or installs a freshly initialized record in the
overlay. -/
def CachedTree.getOrCreateActor (c : CachedTree) (a : Address) (init : Actor) :
    Actor × CachedTree :=
  match c.getActor a with
  | (some act, c1) => (act, c1)
  | (none, c1) => (init, c1.setActor a init)

/-- Modelled from the spec: `CachedTree.Commit` "folds entries into the
base"; every cached record is written to the base tree. -/
def CachedTree.commit (c : CachedTree) : StateTree :=
  c.cache.foldl (fun t p => t.setActor p.1 p.2) c.base

/-- Message (`types.Message`): field names as in the source. -/
structure Message where
  To : Address
  From : Address
  Nonce : Nat
  Value : Int
  Method : String
  Params : Bytes
deriving DecidableEq, Repr

/-- Signed message (`types.SignedMessage`); the engine only reads the
embedded message, signatures are presumed validated upstream. -/
structure SignedMessage where
  Message : Message
  Signature : Bytes
deriving DecidableEq, Repr

/-- Message receipt (`types.MessageReceipt`). -/
structure MessageReceipt where
  ExitCode : Nat
  Return : List Bytes
deriving DecidableEq, Repr

/-- Revert causes a VM execution can produce.  The negative-value
cause is the shared sentinel `errors.Errors[ErrCannotTransferNegativeValue]`
that `ApplyMessage` recognizes; insufficient funds and all other VM
reverts are deliberately not classified by the engine. -/
inductive VMRevertCause where
  | cannotTransferNegativeValue
  | insufficientFunds
  | other (info : Nat)
deriving DecidableEq, Repr

/-- Error returned by `vm.Send`: classified by the VM error predicates
as fault or revert (spec section 1: the VM "returns return-bytes, an
exit code, and an error classified as fault/revert"). -/
inductive VMSendErr where
  | fault (info : Nat)
  | revert (cause : VMRevertCause)
deriving DecidableEq, Repr

/-- Result of one `vm.Send` invocation.  `writes` is the sequence of
actor writes the VM performs through the overlay it was handed; the
spec's invariant "no caller beneath Apply-Message ever holds a
reference to the base tree; all writes flow through the overlay" is
captured by applying these writes to the overlay dictionary only. -/
structure VMSendResult where
  ret : List Bytes
  exitCode : Nat
  err : Option VMSendErr
  writes : List (Address × Actor)
deriving DecidableEq, Repr

/-- Modelled from the spec: the actor VM (`vm.Send`, not under `src/`),
a black-box executor invoked with sender (nil for queries), receiver,
message, the overlay state view and an optional block height. -/
structure VM where
  send : Option Actor → Actor → Message → CachedTree → Option Nat → VMSendResult

/-- Modelled from the spec: the VM's writes are folded into the
overlay dictionary; the base tree is never touched by the VM. -/
def CachedTree.applyWrites (c : CachedTree) (ws : List (Address × Actor)) : CachedTree :=
  ws.foldl (fun t p => t.setActor p.1 p.2) c

/-- The five sentinel revert errors declared next to `ApplyMessage`
(`errAccountNotFound`, `errNonceTooHigh`, `errNonceTooLow`,
`errNonAccountActor`, `errSelfSend`).  They are compared by identity,
so they form their own constructor family. -/
inductive Sentinel where
  | accountNotFound
  | nonceTooHigh
  | nonceTooLow
  | nonAccountActor
  | selfSend
deriving DecidableEq, Repr

/-- Errors that `attemptApplyMessage` can return: a fault, one of the
engine sentinels, or a revert produced by the VM. -/
inductive AttemptErr where
  | fault (info : Nat)
  | sentinel (s : Sentinel)
  | vmRevert (cause : VMRevertCause)
deriving DecidableEq, Repr

/-- Output of `attemptApplyMessage`: the Go function returns a receipt
pointer and an error (both can be non-nil at once, on a VM revert),
and mutates the overlay in place, which is threaded here as `tree`.
`vmInvoked` is instrumentation only: it records whether control
reached the `vm.Send` call. -/
structure AttemptResult where
  receipt : Option MessageReceipt
  err : Option AttemptErr
  tree : CachedTree
  vmInvoked : Bool
deriving DecidableEq, Repr

/-- Modelled from the spec: `account.UpgradeActor` (not under `src/`)
assigns the account-actor code id, preserving balance and nonce. -/
def UpgradeActor (a : Actor) : Actor :=
  { a with Code := some AccountActorCodeCid }

/-- Embedding of `attemptApplyMessage` (src/wallet/util.go lines
355-415): resolve the sender through the overlay, reject self-sends,
get-or-create the receiver, upgrade an empty sender to an account
actor, enforce the account-actor and nonce disciplines, then invoke
the VM and package its exit code and return values into a receipt. -/
def attemptApplyMessage (vm : VM) (st : CachedTree) (msg : Message) (bh : Option Nat) :
    AttemptResult :=
  match st.getActor msg.From with
  | (none, st1) => ⟨none, some (.sentinel .accountNotFound), st1, false⟩
  | (some fromActor, st1) =>
    if msg.From = msg.To then
      ⟨none, some (.sentinel .selfSend), st1, false⟩
    else
      let p := st1.getOrCreateActor msg.To emptyActor
      let toActor := p.1
      let st2 := p.2
      let fromActor2 := if fromActor.Code = none then UpgradeActor fromActor else fromActor
      let st3 := if fromActor.Code = none then st2.setActor msg.From fromActor2 else st2
      if fromActor2.Code ≠ some AccountActorCodeCid then
        ⟨none, some (.sentinel .nonAccountActor), st3, false⟩
      else if msg.Nonce < fromActor2.Nonce then
        ⟨none, some (.sentinel .nonceTooLow), st3, false⟩
      else if fromActor2.Nonce < msg.Nonce then
        ⟨none, some (.sentinel .nonceTooHigh), st3, false⟩
      else
        let r := vm.send (some fromActor2) toActor msg st3 bh
        let st4 := st3.applyWrites r.writes
        match r.err with
        | some (.fault f) => ⟨none, some (.fault f), st4, true⟩
        | some (.revert c) => ⟨some ⟨r.exitCode, r.ret⟩, some (.vmRevert c), st4, true⟩
        | none => ⟨some ⟨r.exitCode, r.ret⟩, none, st4, true⟩

/-- Errors `ApplyMessage` exposes to callers: fault, permanent apply
error or temporary apply error, the latter two wrapping the underlying
cause (`errors.ApplyErrorPermanentWrapf` / `ApplyErrorTemporaryWrapf`). -/
inductive ApplyErr where
  | fault (info : Nat)
  | permanent (e : AttemptErr)
  | temporary (e : AttemptErr)
deriving DecidableEq, Repr

/-- Result of successfully applying one message (`ApplicationResult`).
A message can carry an execution error and still be applied. -/
structure ApplicationResult where
  Receipt : Option MessageReceipt
  ExecutionError : Option AttemptErr
deriving DecidableEq, Repr

/-- Fault code used when the sender cannot be re-read from the base
tree for the nonce increment ("couldn't load from actor"). -/
def faultNoFromActor : Nat := 1000

/-- Fault code for processing an empty tipset. -/
def faultEmptyTipSet : Nat := 1001

/-- The tail of `ApplyMessage` (src/wallet/util.go lines 304-315):
re-read the sender from the base tree, increment its nonce, write it
back, and return the application result. -/
def incNonceAndReturn (st : StateTree) (msg : Message) (r : Option MessageReceipt)
    (ee : Option AttemptErr) : Except ApplyErr ApplicationResult × StateTree :=
  match st.getActor msg.From with
  | none => (.error (.fault faultNoFromActor), st)
  | some fromActor =>
      (.ok ⟨r, ee⟩, st.setActor msg.From { fromActor with Nonce := fromActor.Nonce + 1 })

/-- Embedding of `ApplyMessage` (src/wallet/util.go lines 273-316):
run `attemptApplyMessage` over a fresh overlay; commit the overlay
exactly when the attempt returned no error; classify the sentinel and
negative-value reverts as temporary/permanent apply errors and return
the base tree unchanged; treat any other revert as applied with an
execution error; in both applied cases increment the sender's nonce on
the base tree.  The Go branch faulting on an error that is neither
fault nor revert is unrepresentable here: every non-fault
`AttemptErr` is a revert. -/
def ApplyMessage (vm : VM) (st : StateTree) (msg : Message) (bh : Option Nat) :
    Except ApplyErr ApplicationResult × StateTree :=
  let a := attemptApplyMessage vm (NewCachedStateTree st) msg bh
  match a.err with
  | some (.fault f) => (.error (.fault f), st)
  | some (.sentinel .accountNotFound) =>
      (.error (.temporary (.sentinel .accountNotFound)), st)
  | some (.sentinel .nonceTooHigh) =>
      (.error (.temporary (.sentinel .nonceTooHigh)), st)
  | some (.sentinel .selfSend) =>
      (.error (.permanent (.sentinel .selfSend)), st)
  | some (.sentinel .nonceTooLow) =>
      (.error (.permanent (.sentinel .nonceTooLow)), st)
  | some (.sentinel .nonAccountActor) =>
      (.error (.permanent (.sentinel .nonAccountActor)), st)
  | some (.vmRevert .cannotTransferNegativeValue) =>
      (.error (.permanent (.vmRevert .cannotTransferNegativeValue)), st)
  | some e => incNonceAndReturn st msg a.receipt (some e)
  | none => incNonceAndReturn a.tree.commit msg a.receipt none

/-- Output struct of `ApplyMessages` (`ApplyMessagesResponse`). -/
structure ApplyMessagesResponse where
  Results : List ApplicationResult
  PermanentFailures : List SignedMessage
  TemporaryFailures : List SignedMessage
  SuccessfulMessages : List SignedMessage
  PermanentErrors : List ApplyErr
  TemporaryErrors : List ApplyErr
deriving DecidableEq, Repr

/-- Embedding of `ApplyMessages` (src/wallet/util.go lines 435-463):
iterate the messages in order, apply each, and partition them by
outcome; a fault aborts the batch with no response.  The Go loop
appends to the response lists; the recursion here conses the head
message onto the response computed for the tail, which yields the same
input-ordered lists.  The state tree is threaded through (Go mutates
`st` in place), also out of the fault case. -/
def ApplyMessages (vm : VM) (messages : List SignedMessage) (st : StateTree)
    (bh : Option Nat) : Except Nat ApplyMessagesResponse × StateTree :=
  match messages with
  | [] => (.ok ⟨[], [], [], [], [], []⟩, st)
  | smsg :: rest =>
    let p := ApplyMessage vm st smsg.Message bh
    match p.1 with
    | .error (.fault f) => (.error f, p.2)
    | .error (.permanent e) =>
      match ApplyMessages vm rest p.2 bh with
      | (.error f, st2) => (.error f, st2)
      | (.ok r, st2) =>
          (.ok { r with PermanentFailures := smsg :: r.PermanentFailures,
                        PermanentErrors := .permanent e :: r.PermanentErrors }, st2)
    | .error (.temporary e) =>
      match ApplyMessages vm rest p.2 bh with
      | (.error f, st2) => (.error f, st2)
      | (.ok r, st2) =>
          (.ok { r with TemporaryFailures := smsg :: r.TemporaryFailures,
                        TemporaryErrors := .temporary e :: r.TemporaryErrors }, st2)
    | .ok res =>
      match ApplyMessages vm rest p.2 bh with
      | (.error f, st2) => (.error f, st2)
      | (.ok r, st2) =>
          (.ok { r with SuccessfulMessages := smsg :: r.SuccessfulMessages,
                        Results := res :: r.Results }, st2)

/-- Block (`types.Block`): height, ticket (the byte-string is modelled
as a natural number, compared by its total order), messages. -/
structure Block where
  Height : Nat
  Ticket : Nat
  Messages : List SignedMessage
deriving DecidableEq, Repr

/-- Embedding of `ProcessBlock` (src/wallet/util.go lines 93-107):
apply all messages at the block's height; surface a fault, else the
first permanent error, else the first temporary error; only when all
three are absent return the results. -/
def ProcessBlock (vm : VM) (blk : Block) (st : StateTree) :
    Except ApplyErr (List ApplicationResult) × StateTree :=
  let p := ApplyMessages vm blk.Messages st (some blk.Height)
  match p.1 with
  | .error f => (.error (.fault f), p.2)
  | .ok r =>
    match r.PermanentErrors with
    | e :: _ => (.error e, p.2)
    | [] =>
      match r.TemporaryErrors with
      | e :: _ => (.error e, p.2)
      | [] => (.ok r.Results, p.2)

/-- Tipset: non-empty set of sibling blocks, modelled as the slice
`TipSet.ToSlice` produces. -/
abbrev TipSet := List Block

/-- Modelled from the spec: `TipSet.Height` (not under `src/`), the
uniform height of the member blocks; the empty tipset has none. -/
def tipSetHeight : TipSet → Option Nat
  | [] => none
  | b :: _ => some b.Height

/-- Modelled from the spec: `types.SortBlocks` (not under `src/`)
sorts sibling blocks by ticket, a deterministic total order; insertion
sort on the ticket value. -/
def insertBlock (b : Block) : List Block → List Block
  | [] => [b]
  | c :: rest => if b.Ticket ≤ c.Ticket then b :: c :: rest else c :: insertBlock b rest

/-- Modelled from the spec: `types.SortBlocks`. -/
def SortBlocks (l : List Block) : List Block := l.foldr insertBlock []

/-- Modelled from the spec: `types.SortedCidSet.Add` (not under
`src/`), insertion into an ordered duplicate-free set of content
identifiers. -/
def sortedCidAdd (s : List Nat) (c : Nat) : List Nat :=
  match s with
  | [] => [c]
  | d :: rest =>
      if c < d then c :: d :: rest else if c = d then d :: rest else d :: sortedCidAdd rest c

/-- Fold a list of content identifiers into a sorted identifier set. -/
def sortedCidAddAll (s : List Nat) (cs : List Nat) : List Nat :=
  cs.foldl sortedCidAdd s

/-- Response of `ProcessTipSet` (`ProcessTipSetResponse`).
`Considered` is instrumentation only: the concatenation, in processing
order, of the message sub-sequences actually handed to
`ApplyMessages` after the duplicate filter. -/
structure ProcessTipSetResponse where
  Results : List ApplicationResult
  Successes : List Nat
  Failures : List Nat
  Considered : List SignedMessage
deriving DecidableEq, Repr

/-- The per-block duplicate filter of `ProcessTipSet` (src/wallet/util.go
lines 153-166): drop any message whose content identifier is already
in the filter and record every kept message's identifier. -/
def filterTipSetMsgs (cidOf : SignedMessage → Nat) :
    List Nat → List SignedMessage → List SignedMessage × List Nat
  | filter, [] => ([], filter)
  | filter, m :: rest =>
    if cidOf m ∈ filter then filterTipSetMsgs cidOf filter rest
    else
      let p := filterTipSetMsgs cidOf (cidOf m :: filter) rest
      (m :: p.1, p.2)

/-- The block loop of `ProcessTipSet` (src/wallet/util.go lines
151-194), accumulator style like the Go loop: filter each block's
messages through the tipset-wide filter, apply them, and add the
successful identifiers to `Successes` and the permanent- and
temporary-failure identifiers to `Failures`. -/
def processTipSetBlocks (vm : VM) (cidOf : SignedMessage → Nat) (bh : Option Nat) :
    List Nat → ProcessTipSetResponse → List Block → StateTree →
    Except Nat ProcessTipSetResponse × StateTree
  | _, acc, [], st => (.ok acc, st)
  | filter, acc, blk :: rest, st =>
    let fp := filterTipSetMsgs cidOf filter blk.Messages
    let q := ApplyMessages vm fp.1 st bh
    match q.1 with
    | .error f => (.error f, q.2)
    | .ok r =>
      let acc1 : ProcessTipSetResponse :=
        ⟨acc.Results ++ r.Results,
         sortedCidAddAll acc.Successes (r.SuccessfulMessages.map cidOf),
         sortedCidAddAll
           (sortedCidAddAll acc.Failures (r.PermanentFailures.map cidOf))
           (r.TemporaryFailures.map cidOf),
         acc.Considered ++ fp.1⟩
      processTipSetBlocks vm cidOf bh fp.2 acc1 rest q.2

/-- Embedding of `ProcessTipSet` (src/wallet/util.go lines 136-197):
fault on an empty tipset, else process the member blocks in
ticket-sorted order with a shared duplicate filter.  `cidOf` is the
content-identifier function of signed messages (`msg.Cid()`, computed
by the types package, not under `src/`). -/
def ProcessTipSet (vm : VM) (cidOf : SignedMessage → Nat) (ts : TipSet) (st : StateTree) :
    Except Nat ProcessTipSetResponse × StateTree :=
  match tipSetHeight ts with
  | none => (.error faultEmptyTipSet, st)
  | some h => processTipSetBlocks vm cidOf (some h) [] ⟨[], [], [], []⟩ (SortBlocks ts) st

/-- Error returned by `CallQueryMethod`: the permanent apply error
wrapping a failed receiver lookup, or the error from `vm.Send` passed
through unchanged. -/
inductive QueryErr where
  | permanentNoActor
  | send (e : VMSendErr)
deriving DecidableEq, Repr

/-- Output of `CallQueryMethod`: the Go function returns return-bytes,
a return code, and an error; `post` threads the base state tree the
caller observes afterwards, and `vmInvoked` is instrumentation
recording whether `vm.Send` was invoked. -/
structure QueryCallResult where
  ret : List Bytes
  retCode : Nat
  err : Option QueryErr
  post : StateTree
  vmInvoked : Bool
deriving DecidableEq, Repr

/-- Modelled from the spec: `types.NewQueryMessage` (not under `src/`)
builds a query message with zero nonce and value. -/
def NewQueryMessage (fromA toA : Address) (method : String) (params : Bytes) : Message :=
  ⟨toA, fromA, 0, 0, method, params⟩

/-- Embedding of `CallQueryMethod` (src/wallet/util.go lines 332-348):
look up the receiver (a failure is a permanent apply error with return
code 1 and no VM invocation), build a fresh overlay that is never
committed and never flushed, and run the VM over it with a nil sender
actor. -/
def CallQueryMethod (vm : VM) (st : StateTree) (toA : Address) (method : String)
    (params : Bytes) (fromA : Address) (optBh : Option Nat) : QueryCallResult :=
  match st.getActor toA with
  | none => ⟨[], 1, some .permanentNoActor, st, false⟩
  | some toActor =>
    let cachedSt := NewCachedStateTree st
    let msg := NewQueryMessage fromA toA method params
    let r := vm.send none toActor msg cachedSt optBh
    let cacheAfter := cachedSt.applyWrites r.writes
    ⟨r.ret, r.exitCode, r.err.map QueryErr.send, cacheAfter.base, true⟩

/-! ### Helper lemmas about the state tree and the overlay -/

theorem lookup_setActorList (l : List (Address × Actor)) (a c : Address) (act : Actor) :
    lookupActor (setActorList l a act) c =
      if c = a then some act else lookupActor l c := by
  induction l with
  | nil => simp [setActorList, lookupActor]
  | cons p rest ih =>
    obtain ⟨b, x⟩ := p
    simp only [setActorList]
    split
    · next hab =>
      subst hab
      by_cases hca : c = a <;> simp [lookupActor, hca]
    · next hab =>
      simp only [lookupActor, ih]
      by_cases hcb : c = b <;> by_cases hca : c = a <;> simp_all

theorem StateTree.getActor_setActor (st : StateTree) (a c : Address) (act : Actor) :
    (st.setActor a act).getActor c = if c = a then some act else st.getActor c :=
  lookup_setActorList st.actors a c act

theorem CachedTree.base_setActor (c : CachedTree) (a : Address) (act : Actor) :
    (c.setActor a act).base = c.base := rfl

theorem CachedTree.base_applyWrites (ws : List (Address × Actor)) (c : CachedTree) :
    (c.applyWrites ws).base = c.base := by
  induction ws generalizing c with
  | nil => rfl
  | cons w rest ih => exact ih (c.setActor w.1 w.2)

/-! ### Shared concrete inputs used by witnesses and counterexamples -/

/-- VM double that always succeeds with exit code 0 and no writes. -/
def vmNull : VM := ⟨fun _ _ _ _ _ => ⟨[], 0, none, []⟩⟩

/-- VM double that always reverts with the insufficient-funds cause,
exit code 1, and no writes. -/
def vmInsufficientFunds : VM := ⟨fun _ _ _ _ _ => ⟨[], 1, some (.revert .insufficientFunds), []⟩⟩

/-- Account actor at address 1 with nonce 3 and balance 5. -/
def wActor : Actor := ⟨some AccountActorCodeCid, 3, 5, none⟩

/-- Base tree holding only `wActor` at address 1. -/
def wTree : StateTree := ⟨[(1, wActor)]⟩

/-- Transfer of 10 from address 1 to the non-existent address 2 at the
sender's current nonce. -/
def wMsg : Message := ⟨2, 1, 3, 10, "", []⟩

/-! ### C1: unclassified revert is applied, overlay discarded, nonce advanced -/

/-- C1: when the VM invocation inside `attemptApplyMessage` returns a
revert whose cause is not classified (not the negative-value sentinel;
the engine sentinels cannot be produced by the VM), `ApplyMessage`
returns an `ApplicationResult` carrying that execution error rather
than an error, and the post-call base tree agrees with the pre-call
tree at every address except the sender's, whose actor is unchanged
except for a nonce incremented by one: the overlay is discarded and no
VM state change is committed. -/
theorem applyMessage_unclassified_revert_applied
    (vm : VM) (st : StateTree) (msg : Message) (bh : Option Nat)
    (rc : VMRevertCause) (fa : Actor)
    (hrev : (attemptApplyMessage vm (NewCachedStateTree st) msg bh).err =
      some (.vmRevert rc))
    (hrc : rc ≠ .cannotTransferNegativeValue)
    (hfa : st.getActor msg.From = some fa) :
    (ApplyMessage vm st msg bh).1 =
      .ok ⟨(attemptApplyMessage vm (NewCachedStateTree st) msg bh).receipt,
           some (.vmRevert rc)⟩ ∧
    ∀ a : Address,
      ((ApplyMessage vm st msg bh).2).getActor a =
        if a = msg.From then some { fa with Nonce := fa.Nonce + 1 }
        else st.getActor a := by
  cases rc with
  | cannotTransferNegativeValue => exact absurd rfl hrc
  | insufficientFunds =>
    simp only [ApplyMessage, hrev, incNonceAndReturn, hfa]
    exact ⟨trivial, fun a => st.getActor_setActor msg.From a _⟩
  | other n =>
    simp only [ApplyMessage, hrev, incNonceAndReturn, hfa]
    exact ⟨trivial, fun a => st.getActor_setActor msg.From a _⟩

/-- Witness for C1: insufficient-funds transfer from address 1 to the
absent address 2; the message is applied with an execution error, the
sender's nonce advances from 3 to 4 with balance intact, and address 2
stays absent. -/
theorem applyMessage_unclassified_revert_applied_witness :
    (ApplyMessage vmInsufficientFunds wTree wMsg none).1 =
      .ok ⟨some ⟨1, []⟩, some (.vmRevert .insufficientFunds)⟩ ∧
    ((ApplyMessage vmInsufficientFunds wTree wMsg none).2).getActor 1 =
      some ⟨some AccountActorCodeCid, 4, 5, none⟩ ∧
    ((ApplyMessage vmInsufficientFunds wTree wMsg none).2).getActor 2 = none := by
  obtain ⟨h1, h2⟩ := applyMessage_unclassified_revert_applied
    vmInsufficientFunds wTree wMsg none .insufficientFunds wActor
    (by rfl) (by decide) (by decide)
  exact ⟨h1.trans (by rfl), (h2 1).trans (by decide), (h2 2).trans (by decide)⟩

/-! ### C2: classified failure leaves the base tree untouched -/

/-- C2: whenever `ApplyMessage` returns a classified failure (a
permanent or temporary apply error), the base state tree it returns is
exactly the tree it was given: the overlay was not committed and the
sender's nonce was not incremented.  This is even stronger than the
claim, which allows actors loaded read-only to differ. -/
theorem applyMessage_classified_failure_preserves_state
    (vm : VM) (st : StateTree) (msg : Message) (bh : Option Nat) (e : AttemptErr)
    (h : (ApplyMessage vm st msg bh).1 = .error (.permanent e) ∨
         (ApplyMessage vm st msg bh).1 = .error (.temporary e)) :
    (ApplyMessage vm st msg bh).2 = st := by
  rcases ha : (attemptApplyMessage vm (NewCachedStateTree st) msg bh).err with _ | er
  · rcases h with h | h <;>
    · simp only [ApplyMessage, ha, incNonceAndReturn] at h
      split at h <;> simp at h
  · cases er with
    | fault i =>
      rcases h with h | h <;>
      · simp only [ApplyMessage, ha] at h
        simp at h
    | sentinel s =>
      cases s <;> simp only [ApplyMessage, ha]
    | vmRevert c =>
      cases c with
      | cannotTransferNegativeValue => simp only [ApplyMessage, ha]
      | insufficientFunds =>
        rcases h with h | h <;>
        · simp only [ApplyMessage, ha, incNonceAndReturn] at h
          split at h <;> simp at h
      | other n =>
        rcases h with h | h <;>
        · simp only [ApplyMessage, ha, incNonceAndReturn] at h
          split at h <;> simp at h

/-- Witness for C2: a self-send from address 1 is a permanent failure
and the returned tree is the input tree. -/
theorem applyMessage_classified_failure_preserves_state_witness :
    (ApplyMessage vmNull wTree ⟨1, 1, 3, 0, "", []⟩ none).2 = wTree :=
  applyMessage_classified_failure_preserves_state vmNull wTree ⟨1, 1, 3, 0, "", []⟩ none
    (.sentinel .selfSend) (Or.inl (by rfl))

/-! ### C9: query calls never change the state tree -/

/-- C9: `CallQueryMethod` never changes the state tree it is given:
the overlay wrapped around the VM is never committed and nothing is
flushed, so the observable tree after the call is the tree before the
call, for every target, method, params, sender and optional height. -/
theorem callQueryMethod_pure (vm : VM) (st : StateTree) (toA : Address)
    (method : String) (params : Bytes) (fromA : Address) (optBh : Option Nat) :
    (CallQueryMethod vm st toA method params fromA optBh).post = st := by
  unfold CallQueryMethod
  split
  · rfl
  · exact CachedTree.base_applyWrites _ _

/-! ### C10: query call on a missing actor -/

/-- C10: when the target address has no actor in the state tree,
`CallQueryMethod` does not invoke the VM and returns nil return-bytes,
return code 1, and a permanent apply error wrapping the lookup
failure, leaving the tree unchanged. -/
theorem callQueryMethod_missing_actor (vm : VM) (st : StateTree) (toA : Address)
    (method : String) (params : Bytes) (fromA : Address) (optBh : Option Nat)
    (h : st.getActor toA = none) :
    CallQueryMethod vm st toA method params fromA optBh =
      ⟨[], 1, some .permanentNoActor, st, false⟩ := by
  unfold CallQueryMethod
  rw [h]

/-- Witness for C10: querying address 7, absent from the witness tree. -/
theorem callQueryMethod_missing_actor_witness :
    CallQueryMethod vmNull wTree 7 "" [] 1 none =
      ⟨[], 1, some .permanentNoActor, wTree, false⟩ :=
  callQueryMethod_missing_actor vmNull wTree 7 "" [] 1 none (by decide)

/-! ### C4: the nonce discipline -/

/-- C4: for a message that reaches the nonce check (sender resolved,
not a self-send, sender an account actor after the possible empty-actor
upgrade), a message nonce strictly below the sender's nonce makes
`ApplyMessage` return the permanent nonce-too-low failure with the
tree untouched and no VM invocation; a nonce strictly above makes it
return the temporary nonce-too-high failure likewise; only equality
lets the VM be invoked. -/
theorem applyMessage_nonce_check
    (vm : VM) (st : StateTree) (msg : Message) (bh : Option Nat) (fa : Actor)
    (hfa : st.getActor msg.From = some fa)
    (hne : msg.From ≠ msg.To)
    (hacct : (if fa.Code = none then UpgradeActor fa else fa).Code =
      some AccountActorCodeCid) :
    (if msg.Nonce < fa.Nonce then
      ApplyMessage vm st msg bh =
        (.error (.permanent (.sentinel .nonceTooLow)), st) ∧
      (attemptApplyMessage vm (NewCachedStateTree st) msg bh).vmInvoked = false
     else if fa.Nonce < msg.Nonce then
      ApplyMessage vm st msg bh =
        (.error (.temporary (.sentinel .nonceTooHigh)), st) ∧
      (attemptApplyMessage vm (NewCachedStateTree st) msg bh).vmInvoked = false
     else
      (attemptApplyMessage vm (NewCachedStateTree st) msg bh).vmInvoked = true) := by
  have hTo' : ¬ msg.To = msg.From := fun hh => hne hh.symm
  rcases hto : st.getActor msg.To with _ | t <;>
    by_cases hcode : fa.Code = none <;>
      by_cases hlt : msg.Nonce < fa.Nonce <;>
        by_cases hgt : fa.Nonce < msg.Nonce <;>
          first
          | omega
          | (simp only [hcode, if_true, if_false] at hacct
             simp [ApplyMessage, attemptApplyMessage, NewCachedStateTree,
               CachedTree.getActor, CachedTree.getOrCreateActor, CachedTree.setActor,
               lookupActor, UpgradeActor, hfa, hto, hcode, hTo', hne, hlt, hgt, hacct]
             try (split <;> rfl))

/-! ### Partition behaviour of ApplyMessages -/

/-- Shared helper: a successful `ApplyMessages` run partitions the
input sequence.  The successful, permanent-failure and temporary-failure
message lists are subsequences of the input (input order preserved),
the error/result lists run in lockstep with their message lists, every
input message lands in exactly one bucket (counted with multiplicity),
and the three buckets exhaust the input. -/
theorem applyMessages_partition (vm : VM) (bh : Option Nat) :
    ∀ (msgs : List SignedMessage) (st : StateTree) (r : ApplyMessagesResponse)
      (stf : StateTree),
    ApplyMessages vm msgs st bh = (.ok r, stf) →
    r.SuccessfulMessages.Sublist msgs ∧
    r.PermanentFailures.Sublist msgs ∧
    r.TemporaryFailures.Sublist msgs ∧
    r.Results.length = r.SuccessfulMessages.length ∧
    r.PermanentErrors.length = r.PermanentFailures.length ∧
    r.TemporaryErrors.length = r.TemporaryFailures.length ∧
    r.SuccessfulMessages.length + r.PermanentFailures.length +
      r.TemporaryFailures.length = msgs.length ∧
    (∀ m : SignedMessage,
      r.SuccessfulMessages.count m + r.PermanentFailures.count m +
        r.TemporaryFailures.count m = msgs.count m) := by
  intro msgs
  induction msgs with
  | nil =>
    intro st r stf h
    simp only [ApplyMessages, Prod.mk.injEq, Except.ok.injEq] at h
    obtain ⟨hr, hst⟩ := h
    subst hr
    simp
  | cons smsg rest ih =>
    intro st r stf h
    simp only [ApplyMessages] at h
    split at h
    · simp at h
    · split at h
      · simp at h
      · rename_i r2 st2 heq
        simp only [Prod.mk.injEq, Except.ok.injEq] at h
        obtain ⟨hr, hst⟩ := h
        subst hr
        obtain ⟨s1, s2, s3, l1, l2, l3, l4, hc⟩ := ih _ _ _ heq
        refine ⟨List.Sublist.cons _ s1, List.Sublist.cons₂ _ s2, List.Sublist.cons _ s3,
          ?_, ?_, ?_, ?_, ?_⟩ <;>
          simp only [List.length_cons, List.count_cons, l1, l2, l3]
        · omega
        · intro m
          have := hc m
          by_cases hm : smsg = m <;> simp [hm] at * <;> omega
    · split at h
      · simp at h
      · rename_i r2 st2 heq
        simp only [Prod.mk.injEq, Except.ok.injEq] at h
        obtain ⟨hr, hst⟩ := h
        subst hr
        obtain ⟨s1, s2, s3, l1, l2, l3, l4, hc⟩ := ih _ _ _ heq
        refine ⟨List.Sublist.cons _ s1, List.Sublist.cons _ s2, List.Sublist.cons₂ _ s3,
          ?_, ?_, ?_, ?_, ?_⟩ <;>
          simp only [List.length_cons, List.count_cons, l1, l2, l3]
        · omega
        · intro m
          have := hc m
          by_cases hm : smsg = m <;> simp [hm] at * <;> omega
    · split at h
      · simp at h
      · rename_i r2 st2 heq
        simp only [Prod.mk.injEq, Except.ok.injEq] at h
        obtain ⟨hr, hst⟩ := h
        subst hr
        obtain ⟨s1, s2, s3, l1, l2, l3, l4, hc⟩ := ih _ _ _ heq
        refine ⟨List.Sublist.cons₂ _ s1, List.Sublist.cons _ s2, List.Sublist.cons _ s3,
          ?_, ?_, ?_, ?_, ?_⟩ <;>
          simp only [List.length_cons, List.count_cons, l1, l2, l3]
        · omega
        · intro m
          have := hc m
          by_cases hm : smsg = m <;> simp [hm] at * <;> omega

/-- Shared helper: if the messages before position `k` all get
classified (no fault) and the message at position `k` faults, the
whole batch aborts with that fault and the fault's post-state. -/
theorem applyMessages_fault_abort (vm : VM) (bh : Option Nat)
    (smsg : SignedMessage) (post : List SignedMessage) (f : Nat) :
    ∀ (pre : List SignedMessage) (st : StateTree) (r1 : ApplyMessagesResponse)
      (st1 : StateTree),
    ApplyMessages vm pre st bh = (.ok r1, st1) →
    (ApplyMessage vm st1 smsg.Message bh).1 = .error (.fault f) →
    ApplyMessages vm (pre ++ smsg :: post) st bh =
      (.error f, (ApplyMessage vm st1 smsg.Message bh).2) := by
  intro pre
  induction pre with
  | nil =>
    intro st r1 st1 h hf
    simp only [ApplyMessages, Prod.mk.injEq, Except.ok.injEq] at h
    obtain ⟨hr, hst⟩ := h
    subst hst
    simp only [List.nil_append, ApplyMessages]
    split
    · next g heq =>
      rw [hf] at heq
      simp only [Except.error.injEq, ApplyErr.fault.injEq] at heq
      subst heq
      rfl
    · next e heq => rw [hf] at heq; simp at heq
    · next e heq => rw [hf] at heq; simp at heq
    · next res heq => rw [hf] at heq; simp at heq
  | cons m pre' ih =>
    intro st r1 st1 h hf
    simp only [ApplyMessages] at h ⊢
    split at h
    · simp at h
    · rename_i e heq2
      split at h
      · simp at h
      · rename_i r2 st2 heq
        simp only [Prod.mk.injEq, Except.ok.injEq] at h
        obtain ⟨hr, hst⟩ := h
        subst hst
        simp only [List.append_eq]
        rw [ih _ _ _ heq hf]
    · rename_i e heq2
      split at h
      · simp at h
      · rename_i r2 st2 heq
        simp only [Prod.mk.injEq, Except.ok.injEq] at h
        obtain ⟨hr, hst⟩ := h
        subst hst
        simp only [List.append_eq]
        rw [ih _ _ _ heq hf]
    · rename_i res heq2
      split at h
      · simp at h
      · rename_i r2 st2 heq
        simp only [Prod.mk.injEq, Except.ok.injEq] at h
        obtain ⟨hr, hst⟩ := h
        subst hst
        simp only [List.append_eq]
        rw [ih _ _ _ heq hf]

/-! ### C7: ApplyMessages iterates in order and partitions by outcome -/

/-- C7: `ApplyMessages` iterates the input sequence in order and
partitions it by each message's `ApplyMessage` classification: the
empty batch yields the empty response; a head message that faults
aborts the batch surfacing the fault with no response; a permanently
failing head is appended, together with its error, to exactly the
permanent failure/error lists of the tail's response (all other lists
unchanged); a temporarily failing head likewise to exactly the
temporary lists; an applied head (possibly with execution error) is
appended to the successful messages with its result paired at the
same position of the results.  In addition, over any fault-free run
the three buckets are order-preserving subsequences partitioning the
input with the error/result lists in lockstep, and a fault at any
position aborts the whole batch. -/
theorem applyMessages_order_partition_fault (vm : VM) (bh : Option Nat) :
    (∀ st : StateTree,
      ApplyMessages vm [] st bh = (.ok ⟨[], [], [], [], [], []⟩, st)) ∧
    (∀ (smsg : SignedMessage) (rest : List SignedMessage) (st : StateTree),
      (∀ f : Nat, (ApplyMessage vm st smsg.Message bh).1 = .error (.fault f) →
        ApplyMessages vm (smsg :: rest) st bh =
          (.error f, (ApplyMessage vm st smsg.Message bh).2)) ∧
      (∀ (e : AttemptErr) (r2 : ApplyMessagesResponse) (st2 : StateTree),
        (ApplyMessage vm st smsg.Message bh).1 = .error (.permanent e) →
        ApplyMessages vm rest (ApplyMessage vm st smsg.Message bh).2 bh =
          (.ok r2, st2) →
        ApplyMessages vm (smsg :: rest) st bh =
          (.ok { r2 with PermanentFailures := smsg :: r2.PermanentFailures,
                         PermanentErrors := .permanent e :: r2.PermanentErrors },
           st2)) ∧
      (∀ (e : AttemptErr) (r2 : ApplyMessagesResponse) (st2 : StateTree),
        (ApplyMessage vm st smsg.Message bh).1 = .error (.temporary e) →
        ApplyMessages vm rest (ApplyMessage vm st smsg.Message bh).2 bh =
          (.ok r2, st2) →
        ApplyMessages vm (smsg :: rest) st bh =
          (.ok { r2 with TemporaryFailures := smsg :: r2.TemporaryFailures,
                         TemporaryErrors := .temporary e :: r2.TemporaryErrors },
           st2)) ∧
      (∀ (res : ApplicationResult) (r2 : ApplyMessagesResponse) (st2 : StateTree),
        (ApplyMessage vm st smsg.Message bh).1 = .ok res →
        ApplyMessages vm rest (ApplyMessage vm st smsg.Message bh).2 bh =
          (.ok r2, st2) →
        ApplyMessages vm (smsg :: rest) st bh =
          (.ok { r2 with SuccessfulMessages := smsg :: r2.SuccessfulMessages,
                         Results := res :: r2.Results }, st2))) ∧
    (∀ (msgs : List SignedMessage) (st : StateTree) (r : ApplyMessagesResponse)
       (stf : StateTree),
      ApplyMessages vm msgs st bh = (.ok r, stf) →
      r.SuccessfulMessages.Sublist msgs ∧
      r.PermanentFailures.Sublist msgs ∧
      r.TemporaryFailures.Sublist msgs ∧
      r.Results.length = r.SuccessfulMessages.length ∧
      r.PermanentErrors.length = r.PermanentFailures.length ∧
      r.TemporaryErrors.length = r.TemporaryFailures.length ∧
      r.SuccessfulMessages.length + r.PermanentFailures.length +
        r.TemporaryFailures.length = msgs.length ∧
      (∀ m : SignedMessage,
        r.SuccessfulMessages.count m + r.PermanentFailures.count m +
          r.TemporaryFailures.count m = msgs.count m)) ∧
    (∀ (smsg : SignedMessage) (post : List SignedMessage) (f : Nat)
       (pre : List SignedMessage) (st : StateTree) (r1 : ApplyMessagesResponse)
       (st1 : StateTree),
      ApplyMessages vm pre st bh = (.ok r1, st1) →
      (ApplyMessage vm st1 smsg.Message bh).1 = .error (.fault f) →
      ApplyMessages vm (pre ++ smsg :: post) st bh =
        (.error f, (ApplyMessage vm st1 smsg.Message bh).2)) := by
  refine ⟨fun st => rfl, fun smsg rest st => ⟨?_, ?_, ?_, ?_⟩,
          applyMessages_partition vm bh,
          fun smsg post f => applyMessages_fault_abort vm bh smsg post f⟩
  · intro f h1
    simp only [ApplyMessages, h1]
  · intro e r2 st2 h1 h2
    simp only [ApplyMessages, h1, h2]
  · intro e r2 st2 h1 h2
    simp only [ApplyMessages, h1, h2]
  · intro res r2 st2 h1 h2
    simp only [ApplyMessages, h1, h2]

/-- Ok transfer from account 1 to the fresh address 2 at the current
nonce; applied by both VM doubles below. -/
def wSm1 : SignedMessage := ⟨⟨2, 1, 3, 0, "", []⟩, []⟩

/-- Message from the absent address 5: temporary account-not-found. -/
def wSm2 : SignedMessage := ⟨⟨1, 5, 0, 0, "", []⟩, []⟩

/-- Message to address 3, on which `vmFaultOn3` faults. -/
def wSm3 : SignedMessage := ⟨⟨3, 1, 4, 0, "", []⟩, []⟩

/-- VM double that faults (code 7) on messages to address 3 and
succeeds silently otherwise. -/
def vmFaultOn3 : VM :=
  ⟨fun _ _ m _ _ => if m.To = 3 then ⟨[], 0, some (.fault 7), []⟩ else ⟨[], 0, none, []⟩⟩

/-- State after applying `wSm1` to `wTree`: sender nonce bumped to 4,
empty actor committed at address 2. -/
def wSt1 : StateTree :=
  ⟨[(1, ⟨some AccountActorCodeCid, 4, 5, none⟩), (2, ⟨none, 0, 0, none⟩)]⟩

/-- Response of applying `[wSm1]` to `wTree`. -/
def wR1 : ApplyMessagesResponse :=
  ⟨[⟨some ⟨0, []⟩, none⟩], [], [], [wSm1], [], []⟩

/-- Response of applying `[wSm1, wSm2]` to `wTree`. -/
def wR12 : ApplyMessagesResponse :=
  ⟨[⟨some ⟨0, []⟩, none⟩], [], [wSm2], [wSm1],
   [], [.temporary (.sentinel .accountNotFound)]⟩

/-- Self-send from address 1: classified as permanent. -/
def wSmSelf : SignedMessage := ⟨⟨1, 1, 3, 0, "", []⟩, []⟩

/-- Witness for C7: the head-step laws at each classification — the
self-send head joins exactly the permanent lists of the tail run, the
absent-sender head exactly the temporary lists, the applied `wSm1` the
successes with its result paired, and a faulting head aborts — plus
the partition facts on `[wSm1, wSm2]` and the mid-batch abort of
`[wSm1, wSm3]`. -/
theorem applyMessages_order_partition_fault_witness :
    ApplyMessages vmNull [wSmSelf, wSm1] wTree none =
      (.ok ⟨wR1.Results, [wSmSelf], [], wR1.SuccessfulMessages,
            [.permanent (.sentinel .selfSend)], []⟩, wSt1) ∧
    ApplyMessages vmNull [wSm2] wTree none =
      (.ok ⟨[], [], [wSm2], [], [], [.temporary (.sentinel .accountNotFound)]⟩,
       wTree) ∧
    ApplyMessages vmNull [wSm1] wTree none = (.ok wR1, wSt1) ∧
    ApplyMessages vmFaultOn3 [wSm3] wSt1 none = (.error 7, wSt1) ∧
    wR12.SuccessfulMessages.Sublist [wSm1, wSm2] ∧
    wR12.SuccessfulMessages.length + wR12.PermanentFailures.length +
      wR12.TemporaryFailures.length = 2 ∧
    ApplyMessages vmFaultOn3 [wSm1, wSm3] wTree none = (.error 7, wSt1) := by
  obtain ⟨hnilN, hstepN, hpartN, habortN⟩ :=
    applyMessages_order_partition_fault vmNull none
  obtain ⟨hnilF, hstepF, hpartF, habortF⟩ :=
    applyMessages_order_partition_fault vmFaultOn3 none
  obtain ⟨hp1, _, _, _, _, _, hp7, _⟩ := hpartF [wSm1, wSm2] wTree wR12 wSt1 (by rfl)
  refine ⟨?_, ?_, ?_, ?_, hp1, hp7, ?_⟩
  · exact (hstepN wSmSelf [wSm1] wTree).2.1 (.sentinel .selfSend) wR1 wSt1
      (by rfl) (by rfl)
  · exact (hstepN wSm2 [] wTree).2.2.1 (.sentinel .accountNotFound)
      ⟨[], [], [], [], [], []⟩ wTree (by rfl) (by rfl)
  · exact (hstepN wSm1 [] wTree).2.2.2 ⟨some ⟨0, []⟩, none⟩
      ⟨[], [], [], [], [], []⟩ wSt1 (by rfl) (by rfl)
  · exact (hstepF wSm3 [] wSt1).1 7 (by rfl)
  · exact habortF wSm3 [] 7 [wSm1] wTree wR1 wSt1 (by rfl) (by rfl)

/-- Shared helper: in a fault-free batch, all messages were applied
(successful list equals the input) exactly when both error lists are
empty. -/
theorem applyMessages_success_iff_no_failures (vm : VM) (bh : Option Nat)
    {msgs : List SignedMessage} {st : StateTree} {r : ApplyMessagesResponse}
    {stf : StateTree} (h : ApplyMessages vm msgs st bh = (.ok r, stf)) :
    r.SuccessfulMessages = msgs ↔
      (r.PermanentErrors = [] ∧ r.TemporaryErrors = []) := by
  obtain ⟨s1, _, _, _, l2, l3, l4, _⟩ := applyMessages_partition vm bh msgs st r stf h
  constructor
  · intro hs
    have hlen : r.SuccessfulMessages.length = msgs.length := by rw [hs]
    have hp : r.PermanentErrors.length = 0 := by omega
    have ht : r.TemporaryErrors.length = 0 := by omega
    exact ⟨List.length_eq_zero.mp hp, List.length_eq_zero.mp ht⟩
  · rintro ⟨hp, ht⟩
    have hp0 : r.PermanentErrors.length = 0 := by simp [hp]
    have ht0 : r.TemporaryErrors.length = 0 := by simp [ht]
    exact s1.eq_of_length (by omega)

/-! ### C6: ProcessBlock accepts iff every message was applied -/

/-- C6: `ProcessBlock` returns the per-message results without error
iff every message of the block was applied (possibly with an execution
error), that is, iff the batch ran without fault and with empty
permanent- and temporary-error lists, which happens exactly when the
successful list is the whole block; when it errors it returns no
results (the error alternative carries none). -/
theorem processBlock_ok_iff_all_applied (vm : VM) (blk : Block) (st : StateTree) :
    ((∃ res, (ProcessBlock vm blk st).1 = .ok res) ↔
      (∃ r stf, ApplyMessages vm blk.Messages st (some blk.Height) = (.ok r, stf) ∧
        r.SuccessfulMessages = blk.Messages)) ∧
    (∀ res, (ProcessBlock vm blk st).1 = .ok res →
      ∃ r stf, ApplyMessages vm blk.Messages st (some blk.Height) = (.ok r, stf) ∧
        res = r.Results) := by
  rcases hq : ApplyMessages vm blk.Messages st (some blk.Height) with ⟨q, st2⟩
  cases q with
  | error f =>
    refine ⟨⟨?_, ?_⟩, ?_⟩
    · rintro ⟨res, hres⟩
      simp only [ProcessBlock, hq] at hres
      simp at hres
    · rintro ⟨r, stf, hr, _⟩
      simp at hr
    · intro res hres
      simp only [ProcessBlock, hq] at hres
      simp at hres
  | ok r =>
    rcases hpe : r.PermanentErrors with _ | ⟨e, tl⟩
    · rcases hte : r.TemporaryErrors with _ | ⟨e2, tl2⟩
      · have hs : r.SuccessfulMessages = blk.Messages :=
          (applyMessages_success_iff_no_failures vm (some blk.Height) hq).mpr ⟨hpe, hte⟩
        refine ⟨⟨?_, ?_⟩, ?_⟩
        · intro _
          exact ⟨r, st2, rfl, hs⟩
        · intro _
          refine ⟨r.Results, ?_⟩
          simp only [ProcessBlock, hq, hpe, hte]
        · intro res hres
          simp only [ProcessBlock, hq, hpe, hte] at hres
          exact ⟨r, st2, rfl, (Except.ok.inj hres).symm⟩
      · refine ⟨⟨?_, ?_⟩, ?_⟩
        · rintro ⟨res, hres⟩
          simp only [ProcessBlock, hq, hpe, hte] at hres
          simp at hres
        · rintro ⟨r', stf, hr, hs⟩
          simp only [Prod.mk.injEq, Except.ok.injEq] at hr
          obtain ⟨hr1, hr2⟩ := hr
          subst hr1
          have hno := (applyMessages_success_iff_no_failures vm (some blk.Height) hq).mp hs
          rw [hte] at hno
          simp at hno
        · intro res hres
          simp only [ProcessBlock, hq, hpe, hte] at hres
          simp at hres
    · refine ⟨⟨?_, ?_⟩, ?_⟩
      · rintro ⟨res, hres⟩
        simp only [ProcessBlock, hq, hpe] at hres
        simp at hres
      · rintro ⟨r', stf, hr, hs⟩
        simp only [Prod.mk.injEq, Except.ok.injEq] at hr
        obtain ⟨hr1, hr2⟩ := hr
        subst hr1
        have hno := (applyMessages_success_iff_no_failures vm (some blk.Height) hq).mp hs
        rw [hpe] at hno
        simp at hno
      · intro res hres
        simp only [ProcessBlock, hq, hpe] at hres
        simp at hres

/-- Witness for C6: the single-message block `[wSm1]` at height 0 is
valid, in both directions of the equivalence. -/
theorem processBlock_ok_iff_all_applied_witness :
    (∃ r stf, ApplyMessages vmFaultOn3 [wSm1] wTree (some 0) = (.ok r, stf) ∧
       r.SuccessfulMessages = [wSm1]) ∧
    (∃ res, (ProcessBlock vmFaultOn3 ⟨0, 0, [wSm1]⟩ wTree).1 = .ok res) := by
  have h := processBlock_ok_iff_all_applied vmFaultOn3 ⟨0, 0, [wSm1]⟩ wTree
  exact ⟨h.1.mp ⟨wR1.Results, by rfl⟩, h.1.mpr ⟨wR1, wSt1, by rfl, by rfl⟩⟩

/-- Message from address 1 with nonce 2, below `wActor`'s nonce 3. -/
def wMsgLow : Message := ⟨2, 1, 2, 0, "", []⟩

/-- Witness for C4: nonce 2 against sender nonce 3 is the permanent
nonce-too-low failure and the VM is not invoked. -/
theorem applyMessage_nonce_check_witness :
    ApplyMessage vmNull wTree wMsgLow none =
      (.error (.permanent (.sentinel .nonceTooLow)), wTree) ∧
    (attemptApplyMessage vmNull (NewCachedStateTree wTree) wMsgLow none).vmInvoked =
      false := by
  have h := applyMessage_nonce_check vmNull wTree wMsgLow none wActor
    (by decide) (by decide) (by decide)
  have hlt : wMsgLow.Nonce < wActor.Nonce := by decide
  rw [if_pos hlt] at h
  exact h

/-! ### C8: applied reverts carry an execution error and non-zero exit code -/

/-- Modelled from the spec: the VM guarantees that a reverting
execution reports a non-zero exit code (spec sections 7 and 8: an
applied revert has "a non-empty execution error and non-zero exit
code"; scenario S5).  `vm.Send` is not under `src/`, so this contract
of it is a hypothesis of the claim. -/
def VMExitCodeWF (vm : VM) : Prop :=
  ∀ (fa : Option Actor) (ta : Actor) (m : Message) (ct : CachedTree)
    (b : Option Nat) (rc : VMRevertCause),
    (vm.send fa ta m ct b).err = some (.revert rc) →
    (vm.send fa ta m ct b).exitCode ≠ 0

/-- Shared helper: when `attemptApplyMessage` reports a VM revert, its
receipt is present and was built from the reverting `vm.Send` result,
so a well-formed VM makes its exit code non-zero. -/
theorem attempt_vmRevert_receipt (vm : VM) (c : CachedTree) (msg : Message)
    (bh : Option Nat) (rc : VMRevertCause) (hwf : VMExitCodeWF vm)
    (h : (attemptApplyMessage vm c msg bh).err = some (.vmRevert rc)) :
    ∃ rec : MessageReceipt,
      (attemptApplyMessage vm c msg bh).receipt = some rec ∧ rec.ExitCode ≠ 0 := by
  rcases hA : attemptApplyMessage vm c msg bh with ⟨rcpt, er, tr, vi⟩
  have her : er = some (.vmRevert rc) := by rw [← h, hA]
  simp only [attemptApplyMessage] at hA
  repeat' split at hA
  all_goals simp only [AttemptResult.mk.injEq] at hA
  all_goals obtain ⟨h1, h2, h3, h4⟩ := hA
  all_goals rw [← h2] at her
  all_goals
    first
      | (simp at her; done)
      | (simp only [Option.some.injEq, AttemptErr.vmRevert.injEq] at her
         subst her
         refine ⟨_, h1.symm, ?_⟩
         exact hwf _ _ _ _ _ _ (by assumption))

/-- C8: for an applied message whose VM execution reverted with an
unclassified cause, the `ApplicationResult` returned by `ApplyMessage`
carries a non-empty execution error and a receipt whose exit code is
non-zero (the latter under the VM contract `VMExitCodeWF`, since the
exit code is produced by the VM and passed through). -/
theorem applyMessage_exec_error_result
    (vm : VM) (st : StateTree) (msg : Message) (bh : Option Nat)
    (rc : VMRevertCause) (fa : Actor)
    (hwf : VMExitCodeWF vm)
    (hrev : (attemptApplyMessage vm (NewCachedStateTree st) msg bh).err =
      some (.vmRevert rc))
    (hrc : rc ≠ .cannotTransferNegativeValue)
    (hfa : st.getActor msg.From = some fa) :
    ∃ res : ApplicationResult,
      (ApplyMessage vm st msg bh).1 = .ok res ∧
      res.ExecutionError = some (.vmRevert rc) ∧
      ∃ rec : MessageReceipt, res.Receipt = some rec ∧ rec.ExitCode ≠ 0 := by
  obtain ⟨rec, hrec, hne⟩ :=
    attempt_vmRevert_receipt vm (NewCachedStateTree st) msg bh rc hwf hrev
  cases rc with
  | cannotTransferNegativeValue => exact absurd rfl hrc
  | insufficientFunds =>
    simp only [ApplyMessage, hrev, incNonceAndReturn, hfa]
    exact ⟨_, rfl, rfl, rec, hrec, hne⟩
  | other n =>
    simp only [ApplyMessage, hrev, incNonceAndReturn, hfa]
    exact ⟨_, rfl, rfl, rec, hrec, hne⟩

/-- Witness for C8: the insufficient-funds transfer `wMsg` under the
always-reverting VM double, which satisfies the exit-code contract. -/
theorem applyMessage_exec_error_result_witness :
    ∃ res : ApplicationResult,
      (ApplyMessage vmInsufficientFunds wTree wMsg none).1 = .ok res ∧
      res.ExecutionError = some (.vmRevert .insufficientFunds) ∧
      ∃ rec : MessageReceipt, res.Receipt = some rec ∧ rec.ExitCode ≠ 0 :=
  applyMessage_exec_error_result vmInsufficientFunds wTree wMsg none
    .insufficientFunds wActor
    (fun _ _ _ _ _ _ _ => by simp [vmInsufficientFunds])
    (by rfl) (by decide) (by decide)

/-! ### Presence lemmas for the overlay and commit -/

theorem isSome_lookup_setActorList (l : List (Address × Actor)) (a b : Address)
    (v : Actor) (h : (lookupActor l a).isSome) :
    (lookupActor (setActorList l b v) a).isSome := by
  rw [lookup_setActorList]
  by_cases hab : a = b <;> simp [hab, h]

theorem isSome_lookup_setActorList_self (l : List (Address × Actor)) (a : Address)
    (v : Actor) : (lookupActor (setActorList l a v) a).isSome := by
  rw [lookup_setActorList]
  simp

theorem present_foldl_setActor (l : List (Address × Actor)) (t : StateTree) (a : Address)
    (h : (lookupActor l a).isSome ∨ (t.getActor a).isSome) :
    ((l.foldl (fun t p => t.setActor p.1 p.2) t).getActor a).isSome := by
  induction l generalizing t with
  | nil =>
    rcases h with h | h
    · simp [lookupActor] at h
    · exact h
  | cons p rest ih =>
    obtain ⟨b, v⟩ := p
    simp only [List.foldl_cons]
    apply ih
    rcases h with h | h
    · simp only [lookupActor] at h
      by_cases hab : a = b
      · right
        rw [StateTree.getActor_setActor]
        simp [hab]
      · left
        simpa [hab] using h
    · right
      rw [StateTree.getActor_setActor]
      by_cases hab : a = b <;> simp [hab, h]

theorem CachedTree.setActor_cache_mono (c : CachedTree) (a b : Address) (v : Actor)
    (h : (lookupActor c.cache b).isSome) :
    (lookupActor (c.setActor a v).cache b).isSome :=
  isSome_lookup_setActorList _ _ _ _ h

theorem CachedTree.getActor_cache_mono (c : CachedTree) (a b : Address)
    (h : (lookupActor c.cache b).isSome) :
    (lookupActor (c.getActor a).2.cache b).isSome := by
  unfold CachedTree.getActor
  rcases hc : lookupActor c.cache a with _ | x
  · rcases hb : c.base.getActor a with _ | y
    · simpa [hc, hb] using h
    · simp only [hc, hb]
      exact isSome_lookup_setActorList _ _ _ _ h
  · simpa [hc] using h

theorem CachedTree.getActor_found_mem (c : CachedTree) (a : Address) (x : Actor)
    (c' : CachedTree) (h : c.getActor a = (some x, c')) :
    (lookupActor c'.cache a).isSome := by
  unfold CachedTree.getActor at h
  rcases hc : lookupActor c.cache a with _ | y
  · rcases hb : c.base.getActor a with _ | z
    · simp [hc, hb] at h
    · simp only [hc, hb, Prod.mk.injEq] at h
      obtain ⟨h1, h2⟩ := h
      rw [← h2]
      exact isSome_lookup_setActorList_self _ _ _
  · simp only [hc, Prod.mk.injEq] at h
    obtain ⟨h1, h2⟩ := h
    rw [← h2]
    simp [hc]

theorem CachedTree.getOrCreate_cache_mem (c : CachedTree) (a : Address) (init : Actor) :
    (lookupActor (c.getOrCreateActor a init).2.cache a).isSome := by
  rcases hg : c.getActor a with ⟨o, c1⟩
  cases o with
  | some x =>
    simp only [CachedTree.getOrCreateActor, hg]
    exact CachedTree.getActor_found_mem _ _ _ _ hg
  | none =>
    simp only [CachedTree.getOrCreateActor, hg]
    exact isSome_lookup_setActorList_self _ _ _

theorem CachedTree.getOrCreate_cache_mono (c : CachedTree) (a : Address) (init : Actor)
    (b : Address) (h : (lookupActor c.cache b).isSome) :
    (lookupActor (c.getOrCreateActor a init).2.cache b).isSome := by
  have hm := CachedTree.getActor_cache_mono c a b h
  rcases hg : c.getActor a with ⟨o, c1⟩
  rw [hg] at hm
  cases o with
  | some x => simpa only [CachedTree.getOrCreateActor, hg] using hm
  | none =>
    simp only [CachedTree.getOrCreateActor, hg]
    exact isSome_lookup_setActorList _ _ _ _ hm

theorem CachedTree.applyWrites_cache_mono (ws : List (Address × Actor)) (c : CachedTree)
    (b : Address) (h : (lookupActor c.cache b).isSome) :
    (lookupActor (c.applyWrites ws).cache b).isSome := by
  induction ws generalizing c with
  | nil => exact h
  | cons w rest ih => exact ih (c.setActor w.1 w.2) (isSome_lookup_setActorList _ _ _ _ h)

/-- Shared helper: a VM revert can only be reported after the
self-send check passed, so sender and receiver differ. -/
theorem attempt_vmRevert_ne (vm : VM) (c : CachedTree) (msg : Message) (bh : Option Nat)
    (rc : VMRevertCause)
    (h : (attemptApplyMessage vm c msg bh).err = some (.vmRevert rc)) :
    msg.From ≠ msg.To := by
  rcases hA : attemptApplyMessage vm c msg bh with ⟨rcpt, er, tr, vi⟩
  have her : er = some (.vmRevert rc) := by rw [← h, hA]
  simp only [attemptApplyMessage] at hA
  repeat' split at hA
  all_goals simp only [AttemptResult.mk.injEq] at hA
  all_goals obtain ⟨h1, h2, h3, h4⟩ := hA
  all_goals rw [← h2] at her
  all_goals first
    | (simp at her; done)
    | assumption

/-- Shared helper: a successful attempt passed the self-send check and
left both the sender and the receiver in the overlay dictionary
(loaded, created or written there), ready to be committed. -/
theorem attempt_ok_cache (vm : VM) (c : CachedTree) (msg : Message) (bh : Option Nat)
    (h : (attemptApplyMessage vm c msg bh).err = none) :
    (lookupActor (attemptApplyMessage vm c msg bh).tree.cache msg.From).isSome ∧
    (lookupActor (attemptApplyMessage vm c msg bh).tree.cache msg.To).isSome ∧
    msg.From ≠ msg.To := by
  rcases hA : attemptApplyMessage vm c msg bh with ⟨rcpt, er, tr, vi⟩
  have her : er = none := by rw [← h, hA]
  simp only [attemptApplyMessage] at hA
  repeat' split at hA
  all_goals simp only [AttemptResult.mk.injEq] at hA
  all_goals obtain ⟨h1, h2, h3, h4⟩ := hA
  all_goals rw [← h2] at her
  all_goals first
    | (simp at her; done)
    | (rw [← h3]
       refine ⟨CachedTree.applyWrites_cache_mono _ _ _ ?_,
               CachedTree.applyWrites_cache_mono _ _ _ ?_, by assumption⟩
       · first
           | exact isSome_lookup_setActorList_self _ _ _
           | exact CachedTree.getOrCreate_cache_mono _ _ _ _
               (CachedTree.getActor_found_mem _ _ _ _ (by assumption))
       · first
           | exact CachedTree.setActor_cache_mono _ _ _ _
               (CachedTree.getOrCreate_cache_mem _ _ _)
           | exact CachedTree.getOrCreate_cache_mem _ _ _)

/-! ### C3: ghost actors — the claim's iff fails on execution error -/

/-- Counterexample to C3 as stated: the insufficient-funds transfer
`wMsg` to the absent address 2 is applied (with execution error), yet
no actor is left at address 2 on the base tree — the overlay holding
the get-or-created empty receiver is discarded, so "applied with
execution error" does not leave the empty actor the claim requires. -/
theorem no_ghost_actors_counterexample :
    wTree.getActor wMsg.To = none ∧
    (ApplyMessage vmInsufficientFunds wTree wMsg none).1 =
      .ok ⟨some ⟨1, []⟩, some (.vmRevert .insufficientFunds)⟩ ∧
    ((ApplyMessage vmInsufficientFunds wTree wMsg none).2).getActor wMsg.To = none :=
  ⟨by decide, by rfl, by decide⟩

/-- C3 (amended): the get-or-create performed on a previously absent
receiver leaves an actor for it on the base state tree iff the message
was applied **with success** (committed); after an
applied-with-execution-error return or a classified failure the
receiver is absent from the base tree. -/
theorem no_ghost_actors_amended (vm : VM) (st : StateTree) (msg : Message)
    (bh : Option Nat) (habs : st.getActor msg.To = none) :
    (∃ res, (ApplyMessage vm st msg bh).1 = .ok res ∧ res.ExecutionError = none) ↔
      (((ApplyMessage vm st msg bh).2).getActor msg.To).isSome := by
  rcases ha : (attemptApplyMessage vm (NewCachedStateTree st) msg bh).err with _ | er
  · obtain ⟨hFrom, hTo, hne⟩ := attempt_ok_cache vm (NewCachedStateTree st) msg bh ha
    have hFromC :
        (((attemptApplyMessage vm (NewCachedStateTree st) msg bh).tree.commit).getActor
          msg.From).isSome :=
      present_foldl_setActor _ _ _ (Or.inl hFrom)
    have hToC :
        (((attemptApplyMessage vm (NewCachedStateTree st) msg bh).tree.commit).getActor
          msg.To).isSome :=
      present_foldl_setActor _ _ _ (Or.inl hTo)
    simp only [ApplyMessage, ha, incNonceAndReturn]
    rcases hf : ((attemptApplyMessage vm (NewCachedStateTree st) msg bh).tree.commit).getActor
        msg.From with _ | fa
    · rw [hf] at hFromC
      simp at hFromC
    · constructor
      · intro _
        rw [StateTree.getActor_setActor]
        by_cases h2 : msg.To = msg.From
        · simp [h2]
        · rw [if_neg h2]
          exact hToC
      · intro _
        exact ⟨_, rfl, rfl⟩
  · cases er with
    | fault i =>
      simp only [ApplyMessage, ha]
      constructor
      · rintro ⟨res, hres, _⟩
        simp at hres
      · intro hsome
        rw [habs] at hsome
        simp at hsome
    | sentinel s =>
      cases s <;>
      · simp only [ApplyMessage, ha]
        constructor
        · rintro ⟨res, hres, _⟩
          simp at hres
        · intro hsome
          rw [habs] at hsome
          simp at hsome
    | vmRevert rc =>
      cases rc with
      | cannotTransferNegativeValue =>
        simp only [ApplyMessage, ha]
        constructor
        · rintro ⟨res, hres, _⟩
          simp at hres
        · intro hsome
          rw [habs] at hsome
          simp at hsome
      | insufficientFunds =>
        have hne := attempt_vmRevert_ne vm (NewCachedStateTree st) msg bh _ ha
        have hne' : ¬ msg.To = msg.From := fun hh => hne hh.symm
        simp only [ApplyMessage, ha, incNonceAndReturn]
        rcases hf : st.getActor msg.From with _ | fa
        · constructor
          · rintro ⟨res, hres, _⟩
            simp at hres
          · intro hsome
            rw [habs] at hsome
            simp at hsome
        · constructor
          · rintro ⟨res, hres, hee⟩
            rw [← Except.ok.inj hres] at hee
            simp at hee
          · intro hsome
            rw [StateTree.getActor_setActor, if_neg hne', habs] at hsome
            simp at hsome
      | other n =>
        have hne := attempt_vmRevert_ne vm (NewCachedStateTree st) msg bh _ ha
        have hne' : ¬ msg.To = msg.From := fun hh => hne hh.symm
        simp only [ApplyMessage, ha, incNonceAndReturn]
        rcases hf : st.getActor msg.From with _ | fa
        · constructor
          · rintro ⟨res, hres, _⟩
            simp at hres
          · intro hsome
            rw [habs] at hsome
            simp at hsome
        · constructor
          · rintro ⟨res, hres, hee⟩
            rw [← Except.ok.inj hres] at hee
            simp at hee
          · intro hsome
            rw [StateTree.getActor_setActor, if_neg hne', habs] at hsome
            simp at hsome

/-- Witness for the amended C3: the plain transfer `wMsg` under the
always-succeeding VM leaves an actor at the previously absent
address 2. -/
theorem no_ghost_actors_amended_witness :
    wTree.getActor wMsg.To = none ∧
    (((ApplyMessage vmNull wTree wMsg none).2).getActor wMsg.To).isSome := by
  have h := no_ghost_actors_amended vmNull wTree wMsg none (by decide)
  exact ⟨by decide, h.mp ⟨⟨some ⟨0, []⟩, none⟩, by rfl, rfl⟩⟩

/-! ### Lemmas about the tipset duplicate filter and the sorted cid set -/

/-- The duplicate filter distributes over appending message sequences:
filtering the concatenation threads the updated filter through. -/
theorem filterTipSetMsgs_append (cidOf : SignedMessage → Nat) (f : List Nat)
    (xs ys : List SignedMessage) :
    filterTipSetMsgs cidOf f (xs ++ ys) =
      ((filterTipSetMsgs cidOf f xs).1 ++
        (filterTipSetMsgs cidOf (filterTipSetMsgs cidOf f xs).2 ys).1,
       (filterTipSetMsgs cidOf (filterTipSetMsgs cidOf f xs).2 ys).2) := by
  induction xs generalizing f with
  | nil => simp [filterTipSetMsgs]
  | cons m xs ih =>
    simp only [List.cons_append, filterTipSetMsgs]
    by_cases hm : cidOf m ∈ f
    · simp only [if_pos hm]
      exact ih f
    · simp only [if_neg hm, List.append_eq, ih, List.cons_append]

/-- The kept messages carry identifiers fresh for the incoming filter,
their identifiers are pairwise distinct, and the returned filter is
the incoming filter plus exactly the kept identifiers. -/
theorem filterTipSetMsgs_facts (cidOf : SignedMessage → Nat) :
    ∀ (msgs : List SignedMessage) (f : List Nat),
    (∀ m ∈ (filterTipSetMsgs cidOf f msgs).1, cidOf m ∉ f) ∧
    ((filterTipSetMsgs cidOf f msgs).1.map cidOf).Nodup ∧
    (∀ c, c ∈ (filterTipSetMsgs cidOf f msgs).2 ↔
       c ∈ f ∨ c ∈ (filterTipSetMsgs cidOf f msgs).1.map cidOf) := by
  intro msgs
  induction msgs with
  | nil => intro f; simp [filterTipSetMsgs]
  | cons m rest ih =>
    intro f
    simp only [filterTipSetMsgs]
    by_cases hm : cidOf m ∈ f
    · simp only [if_pos hm]
      exact ih f
    · simp only [if_neg hm]
      obtain ⟨d1, d2, d3⟩ := ih (cidOf m :: f)
      refine ⟨?_, ?_, ?_⟩
      · intro x hx
        rcases List.mem_cons.mp hx with hx | hx
        · subst hx
          exact hm
        · intro hf
          exact d1 x hx (List.mem_cons_of_mem _ hf)
      · rw [List.map_cons, List.nodup_cons]
        refine ⟨?_, d2⟩
        intro hmem
        obtain ⟨y, hy, hcy⟩ := List.mem_map.mp hmem
        exact d1 y hy (by rw [hcy]; exact List.mem_cons_self _ _)
      · intro c
        rw [d3]
        simp only [List.mem_cons, List.map_cons]
        tauto

/-- An identifier occurring in the input and fresh for the filter
survives into the kept sub-sequence. -/
theorem mem_filterTipSetMsgs_map (cidOf : SignedMessage → Nat) :
    ∀ (msgs : List SignedMessage) (f : List Nat) (c : Nat),
    c ∈ msgs.map cidOf → c ∉ f →
    c ∈ (filterTipSetMsgs cidOf f msgs).1.map cidOf := by
  intro msgs
  induction msgs with
  | nil => intro f c hc _; simp at hc
  | cons m rest ih =>
    intro f c hc hf
    simp only [List.map_cons, List.mem_cons] at hc
    simp only [filterTipSetMsgs]
    by_cases hm : cidOf m ∈ f
    · simp only [if_pos hm]
      rcases hc with hc | hc
      · exact absurd (hc ▸ hm) hf
      · exact ih f c hc hf
    · simp only [if_neg hm, List.map_cons, List.mem_cons]
      rcases hc with hc | hc
      · left; exact hc
      · by_cases hcm : c = cidOf m
        · left; exact hcm
        · right
          exact ih (cidOf m :: f) c hc (by simp [hcm, hf])

/-- Membership in the sorted identifier set after an insertion. -/
theorem mem_sortedCidAdd (s : List Nat) (c x : Nat) :
    x ∈ sortedCidAdd s c ↔ x = c ∨ x ∈ s := by
  induction s with
  | nil => simp [sortedCidAdd]
  | cons d rest ih =>
    simp only [sortedCidAdd]
    by_cases h1 : c < d
    · simp only [if_pos h1, List.mem_cons]
    · by_cases h2 : c = d
      · subst h2
        simp only [if_neg h1]
        simp only [if_true, List.mem_cons]
        tauto
      · simp only [if_neg h1, if_neg h2, List.mem_cons, ih]
        tauto

/-- Membership in the sorted identifier set after folding in a list. -/
theorem mem_sortedCidAddAll (cs : List Nat) (s : List Nat) (x : Nat) :
    x ∈ sortedCidAddAll s cs ↔ x ∈ s ∨ x ∈ cs := by
  induction cs generalizing s with
  | nil => simp [sortedCidAddAll]
  | cons c rest ih =>
    have : sortedCidAddAll s (c :: rest) = sortedCidAddAll (sortedCidAdd s c) rest := rfl
    rw [this, ih, mem_sortedCidAdd]
    simp only [List.mem_cons]
    tauto

/-- Membership is preserved by inserting a block into a sorted list. -/
theorem mem_insertBlock (b x : Block) (l : List Block) :
    x ∈ insertBlock b l ↔ x = b ∨ x ∈ l := by
  induction l with
  | nil => simp [insertBlock]
  | cons c rest ih =>
    simp only [insertBlock]
    by_cases h : b.Ticket ≤ c.Ticket
    · simp only [if_pos h, List.mem_cons]
    · simp only [if_neg h, List.mem_cons, ih]
      tauto

/-- Sorting blocks by ticket preserves membership. -/
theorem mem_SortBlocks (l : List Block) (x : Block) :
    x ∈ SortBlocks l ↔ x ∈ l := by
  induction l with
  | nil => simp [SortBlocks]
  | cons b rest ih =>
    have : SortBlocks (b :: rest) = insertBlock b (SortBlocks rest) := rfl
    rw [this, mem_insertBlock, ih]
    simp only [List.mem_cons]

/-- Concatenation of the messages of a block list, in block order. -/
def joinMessages (bs : List Block) : List SignedMessage :=
  (bs.map Block.Messages).flatten

theorem joinMessages_cons (b : Block) (rest : List Block) :
    joinMessages (b :: rest) = b.Messages ++ joinMessages rest := by
  simp [joinMessages]

/-- Shared helper: over a batch whose message identifiers are pairwise
distinct, each identifier of the batch lands in the successful bucket
or in a failure bucket, but never both. -/
theorem batch_cid_partition (vm : VM) (bh : Option Nat) (cidOf : SignedMessage → Nat)
    (p1 : List SignedMessage) (st : StateTree) (r : ApplyMessagesResponse)
    (stf : StateTree)
    (happ : ApplyMessages vm p1 st bh = (.ok r, stf))
    (hnd : (p1.map cidOf).Nodup) :
    (∀ c, c ∈ p1.map cidOf ↔
       (c ∈ r.SuccessfulMessages.map cidOf ∨
        c ∈ r.PermanentFailures.map cidOf ∨
        c ∈ r.TemporaryFailures.map cidOf)) ∧
    (∀ c, ¬(c ∈ r.SuccessfulMessages.map cidOf ∧
            (c ∈ r.PermanentFailures.map cidOf ∨ c ∈ r.TemporaryFailures.map cidOf))) := by
  obtain ⟨s1, s2, s3, _, _, _, _, hc⟩ :=
    applyMessages_partition vm bh p1 st r stf happ
  have hnd1 : p1.Nodup := List.Nodup.of_map cidOf hnd
  have hinj := List.inj_on_of_nodup_map hnd
  constructor
  · intro c
    constructor
    · intro hcp
      obtain ⟨m, hm, hcm⟩ := List.mem_map.mp hcp
      have hcount : 1 ≤ p1.count m := List.one_le_count_iff.mpr hm
      have hsum := hc m
      rcases Nat.lt_or_ge 0 (r.SuccessfulMessages.count m) with h | h
      · left
        exact List.mem_map.mpr ⟨m, List.count_pos_iff.mp h, hcm⟩
      · rcases Nat.lt_or_ge 0 (r.PermanentFailures.count m) with h2 | h2
        · right; left
          exact List.mem_map.mpr ⟨m, List.count_pos_iff.mp h2, hcm⟩
        · right; right
          refine List.mem_map.mpr ⟨m, List.count_pos_iff.mp ?_, hcm⟩
          omega
    · rintro (h | h | h) <;>
      · obtain ⟨m, hm, hcm⟩ := List.mem_map.mp h
        refine List.mem_map.mpr ⟨m, ?_, hcm⟩
        first
          | exact s1.subset hm
          | exact s2.subset hm
          | exact s3.subset hm
  · rintro c ⟨hs, hpt⟩
    obtain ⟨m1, hm1, hc1⟩ := List.mem_map.mp hs
    have hm1p : m1 ∈ p1 := s1.subset hm1
    have hcount1 : p1.count m1 = 1 := List.count_eq_one_of_mem hnd1 hm1p
    have hsum1 := hc m1
    have hs1 : 1 ≤ r.SuccessfulMessages.count m1 := List.one_le_count_iff.mpr hm1
    rcases hpt with hp | hp <;>
    · obtain ⟨m2, hm2, hc2⟩ := List.mem_map.mp hp
      have hm2p : m2 ∈ p1 :=
        (by first | exact s2.subset hm2 | exact s3.subset hm2)
      have heqm : m1 = m2 := hinj hm1p hm2p (by rw [hc1, hc2])
      subst heqm
      have hf1 : 1 ≤ r.PermanentFailures.count m1 ∨
          1 ≤ r.TemporaryFailures.count m1 :=
        (by first
          | exact Or.inl (List.one_le_count_iff.mpr hm2)
          | exact Or.inr (List.one_le_count_iff.mpr hm2))
      omega

/-- Shared helper: invariant of the block loop of `ProcessTipSet`.
Given that every identifier already recorded in the success/failure
sets is in the filter and that those sets are disjoint, a successful
run appends exactly the filter-surviving messages to `Considered`, the
final sets cover exactly the old identifiers plus the newly considered
ones, and stay disjoint. -/
theorem processTipSetBlocks_invariant (vm : VM) (cidOf : SignedMessage → Nat)
    (bh : Option Nat) :
    ∀ (blocks : List Block) (filter : List Nat) (acc : ProcessTipSetResponse)
      (st : StateTree) (res : ProcessTipSetResponse) (stf : StateTree),
    processTipSetBlocks vm cidOf bh filter acc blocks st = (.ok res, stf) →
    (∀ c, (c ∈ acc.Successes ∨ c ∈ acc.Failures) → c ∈ filter) →
    (∀ c, ¬(c ∈ acc.Successes ∧ c ∈ acc.Failures)) →
    res.Considered =
      acc.Considered ++ (filterTipSetMsgs cidOf filter (joinMessages blocks)).1 ∧
    (∀ c, (c ∈ res.Successes ∨ c ∈ res.Failures) ↔
       (c ∈ acc.Successes ∨ c ∈ acc.Failures ∨
        c ∈ (filterTipSetMsgs cidOf filter (joinMessages blocks)).1.map cidOf)) ∧
    (∀ c, ¬(c ∈ res.Successes ∧ c ∈ res.Failures)) := by
  intro blocks
  induction blocks with
  | nil =>
    intro filter acc st res stf h hin hdisj
    simp only [processTipSetBlocks, Prod.mk.injEq, Except.ok.injEq] at h
    obtain ⟨hr, hst⟩ := h
    subst hr
    refine ⟨?_, ?_, hdisj⟩
    · simp [joinMessages, filterTipSetMsgs]
    · intro c
      simp [joinMessages, filterTipSetMsgs]
  | cons blk rest ih =>
    intro filter acc st res stf h hin hdisj
    simp only [processTipSetBlocks] at h
    split at h
    · simp at h
    · rename_i r heq
      have happ : ApplyMessages vm (filterTipSetMsgs cidOf filter blk.Messages).1 st bh =
          (.ok r, (ApplyMessages vm (filterTipSetMsgs cidOf filter blk.Messages).1
            st bh).2) := by
        rw [← heq]
      obtain ⟨d1, d2, d3⟩ := filterTipSetMsgs_facts cidOf blk.Messages filter
      obtain ⟨bcov, bdisj⟩ := batch_cid_partition vm bh cidOf _ _ _ _ happ d2
      have hfresh : ∀ c, c ∈ (filterTipSetMsgs cidOf filter blk.Messages).1.map cidOf →
          c ∉ filter := by
        intro c hc
        obtain ⟨y, hy, hcy⟩ := List.mem_map.mp hc
        exact hcy ▸ d1 y hy
      have hinv1 : ∀ c,
          (c ∈ sortedCidAddAll acc.Successes
              (r.SuccessfulMessages.map cidOf) ∨
           c ∈ sortedCidAddAll
              (sortedCidAddAll acc.Failures (r.PermanentFailures.map cidOf))
              (r.TemporaryFailures.map cidOf)) →
          c ∈ (filterTipSetMsgs cidOf filter blk.Messages).2 := by
        intro c hc
        rcases hc with hc | hc
        · rcases (mem_sortedCidAddAll _ _ _).mp hc with hc | hc
          · exact (d3 c).mpr (Or.inl (hin c (Or.inl hc)))
          · exact (d3 c).mpr (Or.inr ((bcov c).mpr (Or.inl hc)))
        · rcases (mem_sortedCidAddAll _ _ _).mp hc with hc | hc
          · rcases (mem_sortedCidAddAll _ _ _).mp hc with hc | hc
            · exact (d3 c).mpr (Or.inl (hin c (Or.inr hc)))
            · exact (d3 c).mpr (Or.inr ((bcov c).mpr (Or.inr (Or.inl hc))))
          · exact (d3 c).mpr (Or.inr ((bcov c).mpr (Or.inr (Or.inr hc))))
      have hinv2 : ∀ c,
          ¬(c ∈ sortedCidAddAll acc.Successes (r.SuccessfulMessages.map cidOf) ∧
            c ∈ sortedCidAddAll
              (sortedCidAddAll acc.Failures (r.PermanentFailures.map cidOf))
              (r.TemporaryFailures.map cidOf)) := by
        rintro c ⟨hs, hf⟩
        rcases (mem_sortedCidAddAll _ _ _).mp hs with hs | hs <;>
          rcases (mem_sortedCidAddAll _ _ _).mp hf with hf | hf
        · rcases (mem_sortedCidAddAll _ _ _).mp hf with hf | hf
          · exact hdisj c ⟨hs, hf⟩
          · exact hfresh c ((bcov c).mpr (Or.inr (Or.inl hf))) (hin c (Or.inl hs))
        · exact hfresh c ((bcov c).mpr (Or.inr (Or.inr hf))) (hin c (Or.inl hs))
        · rcases (mem_sortedCidAddAll _ _ _).mp hf with hf | hf
          · exact hfresh c ((bcov c).mpr (Or.inl hs)) (hin c (Or.inr hf))
          · exact bdisj c ⟨hs, Or.inl hf⟩
        · exact bdisj c ⟨hs, Or.inr hf⟩
      obtain ⟨ihC, ihS, ihD⟩ := ih _ _ _ _ _ h hinv1 hinv2
      refine ⟨?_, ?_, ihD⟩
      · rw [ihC, joinMessages_cons, filterTipSetMsgs_append]
        simp [List.append_assoc]
      · intro c
        rw [ihS c, joinMessages_cons, filterTipSetMsgs_append]
        simp only [List.map_append, List.mem_append, mem_sortedCidAddAll]
        have hbc := bcov c
        tauto

/-! ### C5: tipset de-duplication -/

/-- C5: in `ProcessTipSet`, the sequence of messages actually handed
to `ApplyMessages` (`Considered`) is exactly the keep-first filtering
of the blocks' messages in ticket-sorted order — every considered
identifier enters the filter regardless of outcome, so a duplicated
identifier is considered only at its first occurrence — and every
identifier occurring in the tipset ends up in exactly one of the
returned success and failure sets. -/
theorem processTipSet_dedup (vm : VM) (cidOf : SignedMessage → Nat) (ts : TipSet)
    (st : StateTree) (res : ProcessTipSetResponse) (stf : StateTree)
    (h : ProcessTipSet vm cidOf ts st = (.ok res, stf)) :
    res.Considered = (filterTipSetMsgs cidOf [] (joinMessages (SortBlocks ts))).1 ∧
    (∀ c, (∃ b, b ∈ ts ∧ ∃ m, m ∈ b.Messages ∧ cidOf m = c) →
       ((c ∈ res.Successes ∧ c ∉ res.Failures) ∨
        (c ∈ res.Failures ∧ c ∉ res.Successes))) := by
  rcases hts : tipSetHeight ts with _ | hgt
  · simp only [ProcessTipSet, hts] at h
    simp at h
  · simp only [ProcessTipSet, hts] at h
    obtain ⟨ihC, ihS, ihD⟩ := processTipSetBlocks_invariant vm cidOf (some hgt)
      (SortBlocks ts) [] ⟨[], [], [], []⟩ st res stf h (by simp) (by simp)
    constructor
    · rw [ihC]
      simp
    · rintro c ⟨b, hb, m, hm, hcm⟩
      have hmem : c ∈ (filterTipSetMsgs cidOf [] (joinMessages (SortBlocks ts))).1.map
          cidOf := by
        apply mem_filterTipSetMsgs_map
        · refine List.mem_map.mpr ⟨m, ?_, hcm⟩
          unfold joinMessages
          refine List.mem_flatten.mpr ⟨b.Messages, ?_, hm⟩
          exact List.mem_map.mpr ⟨b, (mem_SortBlocks ts b).mpr hb, rfl⟩
        · simp
      have hsf := (ihS c).mpr (Or.inr (Or.inr hmem))
      have hnot := ihD c
      tauto

/-- Content-identifier double: distinct on the signed messages used in
the tipset witness. -/
def wCid (sm : SignedMessage) : Nat := sm.Message.To + 10 * sm.Message.Nonce

/-- Second message of the sibling block, applied after `wSm1`. -/
def wSmX : SignedMessage := ⟨⟨4, 1, 4, 0, "", []⟩, []⟩

/-- Block with ticket 1 carrying `wSm1`. -/
def wBlkA : Block := ⟨0, 1, [wSm1]⟩

/-- Sibling block with ticket 2 carrying the duplicate `wSm1` and `wSmX`. -/
def wBlkB : Block := ⟨0, 2, [wSm1, wSmX]⟩

/-- Witness for C5: the duplicate of `wSm1` in the later-ticket block
is skipped — only `[wSm1, wSmX]` are considered — and `wSm1`'s
identifier 32 lands in the successes and not in the failures. -/
theorem processTipSet_dedup_witness :
    ∃ res stf, ProcessTipSet vmNull wCid [wBlkB, wBlkA] wTree = (.ok res, stf) ∧
      res.Considered = [wSm1, wSmX] ∧
      32 ∈ res.Successes ∧ 32 ∉ res.Failures := by
  obtain ⟨h1, h2⟩ := processTipSet_dedup vmNull wCid [wBlkB, wBlkA] wTree _ _ rfl
  rcases h2 32 ⟨wBlkB, by decide, wSm1, by decide, by decide⟩ with hc | hc
  · exact ⟨_, _, rfl, h1.trans (by rfl), hc.1, hc.2⟩
  · exact absurd hc.1 (by decide)
